import Mathlib

/-!
Verification of the driver-update tool's core logic: the version comparator
(`update_checker.py: _is_version_newer`), the update-source strategies, the
download verifier, the install cascade (`driver_installer.py`), the batch
orchestrator, the inventory deduplication (`driver_scanner_fixed.py`) and the
filename sanitizer.  Python code is shallowly embedded: machine-dependent
effects (process execution, the filesystem, the random generator) are passed
in as explicit oracles, exceptions become `Option`/sum-like results.
-/

namespace DriverUpdate

/-! ## Basic token parsing shared by the comparator and the mock generator -/

/-- Value of a list of decimal digit characters, most significant first. -/
def natOfDigits (cs : List Char) : Nat :=
  cs.foldl (fun n c => 10 * n + (c.toNat - '0'.toNat)) 0

/-- Split a character list on the dot character, mirroring Python's
`str.split(".")`: `""` gives `[""]`, `"."` gives `["", ""]`. -/
def splitOnDot : List Char → List (List Char)
  | [] => [[]]
  | c :: rest =>
    if c = '.' then [] :: splitOnDot rest
    else
      match splitOnDot rest with
      | t :: ts => (c :: t) :: ts
      | [] => [[c]]

/-- A token consisting only of decimal digits, nonempty. -/
def parseNatTok (cs : List Char) : Option Nat :=
  if cs.isEmpty then none
  else if cs.all Char.isDigit then some (natOfDigits cs) else none

/-- Python `str.strip()` on a character list (whitespace per
`Char.isWhitespace`: space, tab, carriage return, newline — Python
additionally strips `\f`, `\v` and Unicode spaces, which do not occur in the
data handled here). -/
def pyStrip (s : List Char) : List Char :=
  ((s.dropWhile Char.isWhitespace).reverse.dropWhile Char.isWhitespace).reverse

/-- After an initial digit, Python `int()` accepts further digits with
single underscores strictly between digits; returns the digits with the
underscores removed. -/
def udAux : List Char → Option (List Char)
  | [] => some []
  | ['_'] => none
  | '_' :: c :: cs =>
    if c.isDigit then (udAux cs).map (fun l => c :: l) else none
  | c :: cs =>
    if c.isDigit then (udAux cs).map (fun l => c :: l) else none

/-- A nonempty digit run with optional single underscores between digits
(the digit grammar of Python `int()`). -/
def pyDigits : List Char → Option (List Char)
  | [] => none
  | c :: cs => if c.isDigit then (udAux cs).map (fun l => c :: l) else none

/-- Model of Python `int()` applied to one dot-separated token: surrounding
whitespace is stripped, then an optional single sign, then a nonempty run of
decimal digits with single underscores allowed between digits — so
`int(" 0") = 0` and `int("1_0") = 10`.  (Non-ASCII digits are out of
scope.) -/
def pyIntTok (cs : List Char) : Option Int :=
  match pyStrip cs with
  | '-' :: rest => (pyDigits rest).map (fun ds => -(natOfDigits ds : Int))
  | '+' :: rest => (pyDigits rest).map (fun ds => (natOfDigits ds : Int))
  | t => (pyDigits t).map (fun ds => (natOfDigits ds : Int))

/-! ## The version comparator (`update_checker.py`, `_is_version_newer`) -/

/-- Recognizer for the plain dotted-numeric release form: a dot-separated
sequence of nonempty digit runs, such as `"1.2.0"`.  This is exactly the
domain over which the componentwise/ordering claims quantify; the full model
of `packaging.version.parse` is `version_parse` below, which parses these
strings to a version with this release and no epoch/pre/post/dev/local
part — precisely what `packaging` yields on them. -/
def pep440Release (s : String) : Option (List Nat) :=
  (splitOnDot s.data).mapM parseNatTok

/-- Parse every dot-separated token of the string with Python `int()`;
`none` when any token fails, mirroring the `except` around the list
comprehension in the fallback branch. -/
def pyIntParts (s : String) : Option (List Int) :=
  (splitOnDot s.data).mapM pyIntTok

/-- Componentwise comparison of release sequences, a missing trailing
component counting as zero: the comparison `packaging` performs on two
release tuples (it zero-pads the shorter one).  An exhausted left sequence
compares below the remainder of the right one exactly when that remainder
has a nonzero component. -/
def cmpZ : List Nat → List Nat → Ordering
  | [], ys => if ys.all (fun y => y == 0) then Ordering.eq else Ordering.lt
  | x :: xs, [] => if x ≠ 0 then Ordering.gt else cmpZ xs []
  | x :: xs, y :: ys =>
    if x < y then Ordering.lt
    else if y < x then Ordering.gt
    else cmpZ xs ys

/-- Python's `>` on two integer lists of equal length (the fallback compares
zero-padded lists, so only the lexicographic equal-length case is exercised;
the general prefix rule is included for faithfulness). -/
def listGtInt : List Int → List Int → Bool
  | [], [] => false
  | [], _ :: _ => false
  | _ :: _, [] => true
  | x :: xs, y :: ys =>
    if y < x then true
    else if x < y then false
    else listGtInt xs ys

/-- Zero-pad an integer list on the right to length `n`. -/
def padTo (n : Nat) (l : List Int) : List Int :=
  l ++ List.replicate (n - l.length) 0

/-- Lexicographic comparison of two strings (as character lists) by code
point — Python's `str` order restricted to the code points occurring here. -/
def cmpChars : List Char → List Char → Ordering
  | [], [] => Ordering.eq
  | [], _ :: _ => Ordering.lt
  | _ :: _, [] => Ordering.gt
  | c :: cs, d :: ds =>
    if c.toNat < d.toNat then Ordering.lt
    else if d.toNat < c.toNat then Ordering.gt
    else cmpChars cs ds

/-! ## Full model of `packaging.version` (`Version`, its regex and `_cmpkey`)

`update_checker.py` compares `version.parse(new) > version.parse(current)`.
The dependency is unpinned, so packaging ≥ 22 applies: `parse` is the
`Version` constructor and raises `InvalidVersion` on anything the PEP 440
grammar rejects.  The grammar (packaging's `VERSION_PATTERN`, anchored in
`\s*…\s*`, case-insensitive) is
`v? (epoch!)? release (sep? (a|b|c|rc|alpha|beta|pre|preview) sep? N?)?
((-N) | (sep? (post|rev|r) sep? N?))? (sep? dev sep? N?)? (+local)?`
with `sep ∈ {-, _, .}`; comparison is by the key
`(epoch, release-with-trailing-zeros-stripped, preKey, postKey, devKey,
localKey)`.  ASCII digits/letters model the character classes. -/

/-- One segment of a PEP 440 local version: numeric segments compare as
integers and above alphanumeric segments; alphanumeric segments compare as
strings. -/
inductive LocalSeg where
  | num (n : Nat)
  | alpha (s : List Char)
deriving DecidableEq, Repr

/-- A parsed PEP 440 version.  `pre` stores the normalized pre-release
letter as a rank (`a` = 0, `b` = 1, `c`/`pre`/`preview`/`rc` = 2 — string
order of the normalized letters "a" < "b" < "rc") with its number. -/
structure PepVersion where
  epoch : Nat
  release : List Nat
  pre : Option (Nat × Nat)
  post : Option Nat
  dev : Option Nat
  localSegs : Option (List LocalSeg)
deriving DecidableEq, Repr

/-- A maximal nonempty run of decimal digits, with its value and the rest. -/
def digitRun (cs : List Char) : Option (Nat × List Char) :=
  let ds := cs.takeWhile Char.isDigit
  if ds.isEmpty then none else some (natOfDigits ds, cs.dropWhile Char.isDigit)

/-- A PEP 440 separator character. -/
def isSepChar (c : Char) : Bool :=
  c = '-' || c = '_' || c = '.'

/-- Consume one optional separator (the greedy `[-_\.]?`). -/
def dropOptSep : List Char → List Char
  | [] => []
  | c :: cs => if isSepChar c then cs else c :: cs

/-- Strip a literal word from the front of the input. -/
def stripWord : List Char → List Char → Option (List Char)
  | [], cs => some cs
  | _ :: _, [] => none
  | w :: ws, c :: cs => if c = w then stripWord ws cs else none

/-- The pre-release words with their normalized ranks.  Longer words are
tried before their prefixes (`preview` before `pre`, `alpha` before `a`,
`beta` before `b`), which coincides with the regex's backtracking: after a
shorter prefix the remaining letters can never be matched by the rest of the
grammar. -/
def tryPreWord (cs : List Char) : Option (Nat × List Char) :=
  ((stripWord "preview".data cs).map (fun r => (2, r))) <|>
  ((stripWord "alpha".data cs).map (fun r => (0, r))) <|>
  ((stripWord "beta".data cs).map (fun r => (1, r))) <|>
  ((stripWord "pre".data cs).map (fun r => (2, r))) <|>
  ((stripWord "rc".data cs).map (fun r => (2, r))) <|>
  ((stripWord "a".data cs).map (fun r => (0, r))) <|>
  ((stripWord "b".data cs).map (fun r => (1, r))) <|>
  ((stripWord "c".data cs).map (fun r => (2, r)))

/-- The optional pre-release group `sep? letter sep? N?`; on failure the
input is restored (the group is optional).  A missing number defaults
to 0. -/
def parsePre (cs : List Char) : Option (Nat × Nat) × List Char :=
  match tryPreWord (dropOptSep cs) with
  | some (rank, cs2) =>
    let cs3 := dropOptSep cs2
    match digitRun cs3 with
    | some (n, cs4) => (some (rank, n), cs4)
    | none => (some (rank, 0), cs3)
  | none => (none, cs)

/-- The post-release words `post`, `rev`, `r` (all normalized to `post`). -/
def tryPostWord (cs : List Char) : Option (List Char) :=
  (stripWord "post".data cs) <|> (stripWord "rev".data cs) <|>
    (stripWord "r".data cs)

/-- The worded post-release alternative `sep? (post|rev|r) sep? N?`. -/
def parsePostWorded (cs : List Char) : Option Nat × List Char :=
  match tryPostWord (dropOptSep cs) with
  | some cs2 =>
    let cs3 := dropOptSep cs2
    match digitRun cs3 with
    | some (n, cs4) => (some n, cs4)
    | none => (some 0, cs3)
  | none => (none, cs)

/-- The optional post-release group: the implicit form `-N` is tried first
(as in the regex's alternation), then the worded form; on failure the input
is restored. -/
def parsePost (cs : List Char) : Option Nat × List Char :=
  match cs with
  | '-' :: rest =>
    match digitRun rest with
    | some (n, cs2) => (some n, cs2)
    | none => parsePostWorded cs
  | _ => parsePostWorded cs

/-- The optional dev-release group `sep? dev sep? N?`; restored on
failure. -/
def parseDev (cs : List Char) : Option Nat × List Char :=
  match stripWord "dev".data (dropOptSep cs) with
  | some cs2 =>
    let cs3 := dropOptSep cs2
    match digitRun cs3 with
    | some (n, cs4) => (some n, cs4)
    | none => (some 0, cs3)
  | none => (none, cs)

/-- A character allowed in a local-version segment (the input has already
been lowercased). -/
def isLocalChar (c : Char) : Bool :=
  c.isDigit || (('a' ≤ c) && (c ≤ 'z'))

/-- Classify one local segment: all-digit segments are numeric. -/
def localSegOf (s : List Char) : LocalSeg :=
  if s.all Char.isDigit then LocalSeg.num (natOfDigits s) else LocalSeg.alpha s

/-- The remaining `(sep segment)*` of a local version; `fuel` bounds the
recursion by the input length (each step consumes at least two
characters). -/
def localLoop (fuel : Nat) (acc : List LocalSeg) (cs : List Char) :
    List LocalSeg × List Char :=
  match fuel with
  | 0 => (acc.reverse, cs)
  | fuel + 1 =>
    match cs with
    | c :: rest =>
      if isSepChar c then
        let seg := rest.takeWhile isLocalChar
        if seg.isEmpty then (acc.reverse, cs)
        else localLoop fuel (localSegOf seg :: acc) (rest.dropWhile isLocalChar)
      else (acc.reverse, cs)
    | [] => (acc.reverse, [])

/-- The optional local version `+ segment (sep segment)*`; a `+` not
followed by a valid segment makes the whole version invalid (nothing else
can consume the `+`). -/
def parseLocal (cs : List Char) : Option (Option (List LocalSeg) × List Char) :=
  match cs with
  | '+' :: rest =>
    let seg := rest.takeWhile isLocalChar
    if seg.isEmpty then none
    else
      some (some (localLoop rest.length [localSegOf seg]
          (rest.dropWhile isLocalChar)).1,
        (localLoop rest.length [localSegOf seg] (rest.dropWhile isLocalChar)).2)
  | cs => some (none, cs)

/-- The `(.N)*` tail of the release segment; `fuel` bounds the recursion by
the input length. -/
def releaseLoop (fuel : Nat) (acc : List Nat) (cs : List Char) :
    List Nat × List Char :=
  match fuel with
  | 0 => (acc.reverse, cs)
  | fuel + 1 =>
    match cs with
    | '.' :: rest =>
      match digitRun rest with
      | some (n, cs2) => releaseLoop fuel (n :: acc) cs2
      | none => (acc.reverse, cs)
    | _ => (acc.reverse, cs)

/-- The general PEP 440 grammar: lowercase (the regex is case-insensitive),
strip surrounding whitespace, then `v?`, the optional epoch `N!` (committed
when digits are followed by `!` — the backtracking alternative always fails,
since a leftover `!` matches nothing), the release, the optional
pre/post/dev groups, the optional local version, and end of input. -/
def versionParseFull (s : String) : Option PepVersion :=
  let t := pyStrip (s.data.map Char.toLower)
  let t1 := match t with
    | 'v' :: rest => rest
    | _ => t
  let et : Nat × List Char :=
    match digitRun t1 with
    | some (n, '!' :: rest) => (n, rest)
    | _ => (0, t1)
  match digitRun et.2 with
  | none => none
  | some (r0, t3) =>
    let rl := releaseLoop t3.length [r0] t3
    let pr := parsePre rl.2
    let po := parsePost pr.2
    let dv := parseDev po.2
    match parseLocal dv.2 with
    | none => none
    | some (loc, t8) =>
      if t8.isEmpty then
        some { epoch := et.1, release := rl.1, pre := pr.1, post := po.1,
               dev := dv.1, localSegs := loc }
      else none

/-- Model of `packaging.version.parse` (packaging ≥ 22: the `Version`
constructor, raising on invalid input).  Plain dotted-numeric strings are
recognized directly — on them the general grammar takes no `v`, epoch, pre,
post, dev or local part and yields exactly this version — and every other
string goes through the full grammar. -/
def version_parse (s : String) : Option PepVersion :=
  match pep440Release s with
  | some pa =>
    some { epoch := 0, release := pa, pre := none, post := none, dev := none,
           localSegs := none }
  | none => versionParseFull s

/-- Three-way comparison on `Nat`. -/
def cmpNat (m n : Nat) : Ordering :=
  if m < n then Ordering.lt else if n < m then Ordering.gt else Ordering.eq

/-- A comparison key component that may be `-Infinity` or `Infinity`
(packaging's `NegativeInfinity`/`Infinity` sentinels). -/
inductive ExtKey (α : Type) where
  | negInf
  | val (a : α)
  | inf

/-- Compare two extended key components. -/
def cmpExt {α : Type} (c : α → α → Ordering) : ExtKey α → ExtKey α → Ordering
  | ExtKey.negInf, ExtKey.negInf => Ordering.eq
  | ExtKey.negInf, _ => Ordering.lt
  | _, ExtKey.negInf => Ordering.gt
  | ExtKey.inf, ExtKey.inf => Ordering.eq
  | ExtKey.inf, _ => Ordering.gt
  | _, ExtKey.inf => Ordering.lt
  | ExtKey.val a, ExtKey.val b => c a b

/-- Python tuple comparison: lexicographic, a strict prefix comparing
less. -/
def cmpTuple {α : Type} (c : α → α → Ordering) : List α → List α → Ordering
  | [], [] => Ordering.eq
  | [], _ :: _ => Ordering.lt
  | _ :: _, [] => Ordering.gt
  | x :: xs, y :: ys => (c x y).then (cmpTuple c xs ys)

/-- The pre-release key pair `(letter-rank, number)`. -/
def cmpPrePair (p q : Nat × Nat) : Ordering :=
  (cmpNat p.1 q.1).then (cmpNat p.2 q.2)

/-- One local segment: packaging keys numeric segments as `(i, "")` and
alphanumeric ones as `(NegativeInfinity, s)`, so numeric segments sort above
alphanumeric ones, numerics by value, alphanumerics by string. -/
def cmpSeg : LocalSeg → LocalSeg → Ordering
  | LocalSeg.num i, LocalSeg.num j => cmpNat i j
  | LocalSeg.num _, LocalSeg.alpha _ => Ordering.gt
  | LocalSeg.alpha _, LocalSeg.num _ => Ordering.lt
  | LocalSeg.alpha s, LocalSeg.alpha t => cmpChars s t

/-- Strip trailing zeros from a release, as packaging's `_cmpkey` does
before comparing release tuples. -/
def dropTrailingZeros (l : List Nat) : List Nat :=
  (l.reverse.dropWhile (fun x => x == 0)).reverse

/-- The pre-release key: `-Infinity` for a version with only a dev segment
(so `1.0.dev0` sorts below `1.0a1`), `Infinity` for a version with no
pre-release (so `1.0` sorts above `1.0rc1`), else the pair. -/
def preKey (v : PepVersion) : ExtKey (Nat × Nat) :=
  match v.pre, v.post, v.dev with
  | none, none, some _ => ExtKey.negInf
  | none, _, _ => ExtKey.inf
  | some p, _, _ => ExtKey.val p

/-- The post-release key: absent sorts lowest. -/
def postKey (v : PepVersion) : ExtKey Nat :=
  match v.post with
  | none => ExtKey.negInf
  | some n => ExtKey.val n

/-- The dev-release key: absent sorts highest. -/
def devKey (v : PepVersion) : ExtKey Nat :=
  match v.dev with
  | none => ExtKey.inf
  | some n => ExtKey.val n

/-- The local-version key: absent sorts lowest. -/
def localKey (v : PepVersion) : ExtKey (List LocalSeg) :=
  match v.localSegs with
  | none => ExtKey.negInf
  | some segs => ExtKey.val segs

/-- packaging's `_cmpkey` comparison: epoch, then the release tuples with
trailing zeros stripped (theorem `cmpTuple_dropTrailingZeros` below shows
this equals the zero-padded componentwise comparison), then the
pre/post/dev/local keys. -/
def cmpPepVersion (v w : PepVersion) : Ordering :=
  (cmpNat v.epoch w.epoch).then
    ((cmpTuple cmpNat (dropTrailingZeros v.release)
        (dropTrailingZeros w.release)).then
      ((cmpExt cmpPrePair (preKey v) (preKey w)).then
        ((cmpExt cmpNat (postKey v) (postKey w)).then
          ((cmpExt cmpNat (devKey v) (devKey w)).then
            (cmpExt (cmpTuple cmpSeg) (localKey v) (localKey w))))))

/-- `_is_version_newer(new_version, current_version)`: first
`version.parse(new) > version.parse(current)`; if parsing raises for either
string, re-parse the dot-separated tokens as integers, zero-pad to equal
length and use list comparison; if that also raises, return `False`. -/
def is_version_newer (new_version current_version : String) : Bool :=
  match version_parse new_version, version_parse current_version with
  | some a, some b => cmpPepVersion a b == Ordering.gt
  | _, _ =>
    match pyIntParts new_version, pyIntParts current_version with
    | some new_parts, some current_parts =>
      let max_len := max new_parts.length current_parts.length
      listGtInt (padTo max_len new_parts) (padTo max_len current_parts)
    | _, _ => false

/-- The spec's three-valued `compare`, expressed through the code's boolean
comparator: GREATER when `isNewer(a, b)`, LESS when `isNewer(b, a)`,
otherwise EQUAL. -/
def compareVersions (a b : String) : Ordering :=
  if is_version_newer a b then Ordering.gt
  else if is_version_newer b a then Ordering.lt
  else Ordering.eq

/-- Modelled from the spec: the fallback it describes for unparseable
versions, "comparing the dot-separated tokens as strings" — lexicographic
comparison of the token lists under the string order.  Used only to compare
the spec's description against `_is_version_newer`'s actual fallback. -/
def specStringTokenGT (a b : String) : Bool :=
  listGtToks (splitOnDot a.data) (splitOnDot b.data)
where
  listGtToks : List (List Char) → List (List Char) → Bool
    | [], [] => false
    | [], _ :: _ => false
    | _ :: _, [] => true
    | x :: xs, y :: ys =>
      match cmpChars x y with
      | Ordering.gt => true
      | Ordering.lt => false
      | Ordering.eq => listGtToks xs ys

/-- `l.getD i 0`: component `i` of a release sequence, missing trailing
components reading as zero. -/
def nthZ (l : List Nat) (i : Nat) : Nat :=
  l.getD i 0

/-! ## Update-source strategies (`update_checker.py`) -/

/-- The fields of a scanned driver record consumed by the update checkers. -/
structure UCDriver where
  device_name : String
  manufacturer : String
  hardware_id : String
  version : String
deriving DecidableEq, Repr

/-- The dictionary returned by every `_check_*_updates` strategy. -/
structure UpdateInfo where
  device_name : String
  current_version : String
  new_version : String
  download_url : String
  download_size : String
  manufacturer : String
  driver_type : String
deriving DecidableEq, Repr

/-- `_generate_mock_version`: split the current version on dots; with at
least two components, convert components 0–3 with `int()` (missing third and
fourth default to 0), increment the build number, and format as
`major.minor.build.revision`; any conversion failure (or fewer than two
components) yields `"1.0.0.1"`. -/
def generate_mock_version (current_version : String) : String :=
  let parts := splitOnDot current_version.data
  if parts.length ≥ 2 then
    match pyIntTok (parts.getD 0 []), pyIntTok (parts.getD 1 []),
        (if parts.length > 2 then pyIntTok (parts.getD 2 []) else some 0),
        (if parts.length > 3 then pyIntTok (parts.getD 3 []) else some 0) with
    | some major, some minor, some build, some revision =>
      let build := build + 1
      toString major ++ "." ++ toString minor ++ "." ++ toString build ++ "."
        ++ toString revision
    | _, _, _, _ => "1.0.0.1"
  else "1.0.0.1"

/-- `_check_microsoft_updates`: the `random.random() < 0.1` draw is passed in
as the boolean `roll`.  When the draw succeeds the update dictionary is
returned unconditionally — unlike the nvidia/amd/intel/realtek checkers,
no `_is_version_newer` guard is applied. -/
def check_microsoft_updates (driver : UCDriver) (roll : Bool) : Option UpdateInfo :=
  if roll then
    let current_version := driver.version
    let new_version := generate_mock_version current_version
    some { device_name := driver.device_name
           current_version := current_version
           new_version := new_version
           download_url := "windows_update"
           download_size := "10 MB"
           manufacturer := "Microsoft"
           driver_type := "System" }
  else none

/-- `_check_generic_updates`: the `random.random() < 0.05` draw is passed in
as `roll`.  (The hardware-id probe in the source parses vendor/device ids and
then discards them — it has no effect on the result and is omitted.)  As with
the microsoft checker, no `_is_version_newer` guard is applied. -/
def check_generic_updates (driver : UCDriver) (roll : Bool) : Option UpdateInfo :=
  if roll then
    let current_version := driver.version
    let new_version := generate_mock_version current_version
    some { device_name := driver.device_name
           current_version := current_version
           new_version := new_version
           download_url := "generic_update"
           download_size := "25 MB"
           manufacturer := driver.manufacturer
           driver_type := "Generic" }
  else none

/-! ## Download verification (`update_checker.py`, `verify_download`) -/

/-- One multiplier entry of `{"KB": 1024, "MB": 1024**2, "GB": 1024**3}`,
matched case-insensitively against the two characters at the unit position. -/
def unitMultiplier : List Char → Option Nat
  | a :: b :: _ =>
    if a.toLower = 'k' ∧ b.toLower = 'b' then some 1024
    else if a.toLower = 'm' ∧ b.toLower = 'b' then some (1024 ^ 2)
    else if a.toLower = 'g' ∧ b.toLower = 'b' then some (1024 ^ 3)
    else none
  | _ => none

/-- Attempt the pattern `(\d+(?:\.\d+)?)\s*(KB|MB|GB)` at the head of the
character list: a maximal digit run, an optional fraction, optional
whitespace, then a unit.  (For this pattern the greedy, non-backtracking
reading coincides with the regex engine's: a digit can never satisfy the
position after the numeric group.)  Returns `int(size * multiplier)` in
bytes: with `k` fraction digits the value `size * multiplier` equals
`digits * multiplier / 10^k` exactly, truncated to an integer — Python's
binary-float rounding of the product is modelled as exact arithmetic. -/
def matchSizeAt (cs : List Char) : Option Nat :=
  let ds := cs.takeWhile Char.isDigit
  let rest1 := cs.dropWhile Char.isDigit
  if ds.isEmpty then none
  else
    let fracAndRest : List Char × List Char :=
      match rest1 with
      | '.' :: r =>
        let fs := r.takeWhile Char.isDigit
        if fs.isEmpty then ([], rest1) else (fs, r.dropWhile Char.isDigit)
      | _ => ([], rest1)
    let fs := fracAndRest.1
    let rest3 := fracAndRest.2.dropWhile Char.isWhitespace
    match unitMultiplier rest3 with
    | some mult => some (natOfDigits (ds ++ fs) * mult / 10 ^ fs.length)
    | none => none

/-- `re.search` of the size pattern: the leftmost start position with a
match wins. -/
def scanSize : List Char → Option Nat
  | [] => none
  | c :: rest =>
    match matchSizeAt (c :: rest) with
    | some q => some q
    | none => scanSize rest

/-- `_parse_size_string`: search the string for `(\d+(?:\.\d+)?)\s*(KB|MB|GB)`
(case-insensitive) and return `int(size * multiplier)`; `None` when no
match or on an exception. -/
def parse_size_string (size_str : String) : Option Nat :=
  scanSize size_str.data

/-- `str.lower().endswith(suffix)` on character lists. -/
def listEndsWith (l suffix : List Char) : Bool :=
  l.reverse.take suffix.length == suffix.reverse

/-- The extension gate of `verify_download`:
`file_path.lower().endswith((".exe", ".msi", ".inf"))`. -/
def recognizedExt (file_path : String) : Bool :=
  let lowered := file_path.data.map Char.toLower
  listEndsWith lowered ".exe".data || listEndsWith lowered ".msi".data
    || listEndsWith lowered ".inf".data

/-- `verify_download(file_path, expected_size)`.  The filesystem is passed in
explicitly: `file_exists` models `os.path.exists`, `file_size` models
`os.path.getsize`.  When `expected_size` is truthy and parses to a truthy
(nonzero) byte count, reject a size differing from it by more than 10%:
`abs(file_size - expected_bytes) > expected_bytes * 0.1` is taken exactly and
stated over integers as `10 * |file_size - expected_bytes| > expected_bytes`
(the float rounding of `expected_bytes * 0.1` is abstracted away); finally
require a recognized installer extension. -/
def verify_download (file_exists : Bool) (file_size : Nat) (file_path : String)
    (expected_size : Option String) : Bool :=
  if !file_exists then false
  else
    let sizeReject : Bool :=
      match expected_size with
      | some es =>
        if es ≠ "" then
          match parse_size_string es with
          | some expected_bytes =>
            decide (expected_bytes ≠ 0 ∧
              10 * ((file_size : Int) - (expected_bytes : Int)).natAbs >
                expected_bytes)
          | none => false
        else false
      | none => false
    if sizeReject then false
    else recognizedExt file_path

/-- `_download_driver` (`driver_installer.py`): fetch the payload
(`download_ok` models whether `download_driver` succeeded), then verify it;
the staging path is returned only when both steps succeed, and a `None`
result makes `_install_single_update` fail the item. -/
def download_driver (download_ok : Bool) (file_exists : Bool) (file_size : Nat)
    (download_path : String) (download_size : Option String) : Option String :=
  if download_ok then
    if verify_download file_exists file_size download_path download_size then
      some download_path
    else none
  else none

/-! ## Install strategies (`driver_installer.py`) -/

/-- Outcome of one `subprocess.run` invocation: a normal exit with a return
code, a `TimeoutExpired`, or some other exception. -/
inductive ExecResult where
  | exited (code : Int)
  | timeout
  | raised
deriving DecidableEq, Repr

/-- The fixed, ordered silent-flag list of `_install_exe_driver`. -/
def silent_params : List String :=
  ["/S", "/SILENT", "/VERYSILENT", "/q", "/s", "-s", "--silent", "/quiet"]

/-- Exit code 0 or the reboot-required code 3010 counts as success. -/
def isSuccessCode : ExecResult → Bool
  | ExecResult.exited code => code == 0 || code == 3010
  | _ => false

/-- `_install_interactive`: run the payload with no flags and wait; exit code
0 or 3010 is success, any other exit, timeout or exception is failure. -/
def install_interactive (run : List String → ExecResult) (driver_file : String) :
    Bool :=
  match run [driver_file] with
  | ExecResult.exited code => code == 0 || code == 3010
  | _ => false

/-- The flag cascade of `_install_exe_driver`, instrumented with the list of
commands attempted: for each flag in order run `[driver_file, param]`; stop
with success on exit code 0 or 3010; on any other exit code, timeout or
exception continue with the next flag; when the flags are exhausted fall back
to `_install_interactive`. -/
def exeCascade (run : List String → ExecResult) (driver_file : String) :
    List String → Bool × List (List String)
  | [] => (install_interactive run driver_file, [[driver_file]])
  | param :: rest =>
    let cmd := [driver_file, param]
    match run cmd with
    | ExecResult.exited code =>
      if code == 0 || code == 3010 then (true, [cmd])
      else
        let r := exeCascade run driver_file rest
        (r.1, cmd :: r.2)
    | _ =>
      let r := exeCascade run driver_file rest
      (r.1, cmd :: r.2)

/-- `_install_exe_driver`, returning the outcome together with the commands
attempted in order. -/
def install_exe_driver (run : List String → ExecResult) (driver_file : String) :
    Bool × List (List String) :=
  exeCascade run driver_file silent_params

/-- `file.endswith((".inf", ".sys", ".cat"))` — case-sensitive, as in the
source's archive walk. -/
def isDriverInfoFile (file : String) : Bool :=
  listEndsWith file.data ".inf".data || listEndsWith file.data ".sys".data
    || listEndsWith file.data ".cat".data

/-- The walk of `_install_zip_driver_interactive` over the extracted files:
every driver-information file is installed with the `.inf` strategy and the
result recorded; no result is consulted. -/
def zipWalk (infInstall : String → Bool) : List String → List (String × Bool)
  | [] => []
  | file :: rest =>
    if isDriverInfoFile file then (file, infInstall file) :: zipWalk infInstall rest
    else zipWalk infInstall rest

/-- `_install_zip_driver_interactive`, instrumented with the inner
installation attempts: `extract_ok` models whether `shutil.unpack_archive`
completed (an exception there, and only there, yields `False`); `files` is
the sequence of file names produced by `os.walk`; `infInstall` is the oracle
for `_install_inf_driver_interactive` (which catches all its exceptions and
returns a boolean). -/
def install_zip_driver_interactive (extract_ok : Bool) (files : List String)
    (infInstall : String → Bool) : Bool × List (String × Bool) :=
  if extract_ok then (true, zipWalk infInstall files)
  else (false, [])

/-! ## Batch orchestrator (`driver_installer.py`, `install_updates`) -/

/-- Outcome of one `_install_single_update` call: a returned boolean, or an
exception escaping it. -/
inductive StepResult where
  | ok (b : Bool)
  | raised
deriving DecidableEq, Repr

/-- The loop body of `install_updates`: a raised exception is logged and the
loop continues; only a returned `True` increments the success count. -/
def stepSucceeded : StepResult → Bool
  | StepResult.ok b => b
  | StepResult.raised => false

/-- The per-candidate loop of `install_updates`, instrumented with the
recorded outcome of every candidate in processing order. -/
def installLoop {α : Type} (step : α → StepResult) : List α → Nat × List (α × Bool)
  | [] => (0, [])
  | u :: rest =>
    let r := stepSucceeded (step u)
    let t := installLoop step rest
    (if r then t.1 + 1 else t.1, (u, r) :: t.2)

/-- `install_updates`: create one restore point first (`restore_ok` models
`create_restore_point`; failure only logs a warning), then process the
candidates in order, returning the success count together with the recorded
per-candidate outcomes. -/
def install_updates {α : Type} (restore_ok : Bool) (step : α → StepResult)
    (updates : List α) : Nat × List (α × Bool) :=
  let _ := restore_ok
  installLoop step updates

/-! ## Inventory deduplication (`driver_scanner_fixed.py`, `_remove_duplicates`) -/

/-- The fields of a scanned record that the scanner pipeline distinguishes;
`device_id` and `driver_path` form the deduplication key. -/
structure ScanRecord where
  device_name : String
  device_id : String
  driver_path : String
  version : String
deriving DecidableEq, Repr

/-- The deduplication key `(driver.get("device_id",""), driver.get("driver_path",""))`. -/
def recKey (d : ScanRecord) : String × String :=
  (d.device_id, d.driver_path)

/-- The loop of `_remove_duplicates` with its `seen` set (modelled as the
list of keys inserted so far). -/
def removeDupAux (seen : List (String × String)) : List ScanRecord → List ScanRecord
  | [] => []
  | d :: rest =>
    if recKey d ∈ seen then removeDupAux seen rest
    else d :: removeDupAux (recKey d :: seen) rest

/-- `_remove_duplicates`: keep the first-seen record for each
`(device_id, driver_path)` key. -/
def remove_duplicates (drivers : List ScanRecord) : List ScanRecord :=
  removeDupAux [] drivers

/-! ## Filename sanitizer (`driver_installer.py`, `_sanitize_filename`) -/

/-- The characters `<>:"/\|?*` removed by `_sanitize_filename`. -/
def invalid_chars : List Char :=
  ['<', '>', ':', '"', '/', '\\', '|', '?', '*']

/-- One `filename.replace(char, "_")` pass. -/
def replaceChar (s : List Char) (c : Char) : List Char :=
  s.map (fun x => if x = c then '_' else x)

/-- `_sanitize_filename`: replace each invalid character with an underscore,
truncate to 50 characters, then strip surrounding whitespace. -/
def sanitize_filename (filename : String) : String :=
  let replaced := invalid_chars.foldl replaceChar filename.data
  let truncated := replaced.take 50
  String.mk (pyStrip truncated)

/-! ## Order-theoretic lemmas about the componentwise comparison -/

@[simp]
theorem nthZ_nil (i : Nat) : nthZ [] i = 0 := by
  simp [nthZ]

@[simp]
theorem nthZ_cons_zero (a : Nat) (l : List Nat) : nthZ (a :: l) 0 = a := by
  simp [nthZ]

@[simp]
theorem nthZ_cons_succ (a : Nat) (l : List Nat) (i : Nat) :
    nthZ (a :: l) (i + 1) = nthZ l i := by
  simp [nthZ]

theorem allZero_iff_nthZ (l : List Nat) :
    (l.all (fun y => y == 0)) = true ↔ ∀ i, nthZ l i = 0 := by
  induction l with
  | nil => simp
  | cons y ys ih =>
    simp only [List.all_cons, Bool.and_eq_true, beq_iff_eq, ih]
    constructor
    · rintro ⟨h0, h⟩ i
      cases i with
      | zero => simpa using h0
      | succ k => simpa using h k
    · intro h
      refine ⟨by simpa using h 0, fun i => by simpa using h (i + 1)⟩

theorem cmpZ_nil_right (b : List Nat) :
    cmpZ b [] = if b.all (fun y => y == 0) then Ordering.eq else Ordering.gt := by
  induction b with
  | nil => simp [cmpZ]
  | cons y ys ih =>
    by_cases hy : y = 0
    · subst hy
      simpa [cmpZ] using ih
    · simp [cmpZ, hy]

theorem cmpZ_swap (a : List Nat) : ∀ b, cmpZ b a = (cmpZ a b).swap := by
  induction a with
  | nil =>
    intro b
    rw [cmpZ_nil_right]
    show _ = (cmpZ [] b).swap
    rw [show cmpZ [] b = if b.all (fun y => y == 0) then Ordering.eq
        else Ordering.lt from rfl]
    by_cases h : b.all (fun y => y == 0) <;> simp [h, Ordering.swap]
  | cons x xs ih =>
    intro b
    cases b with
    | nil =>
      show cmpZ [] (x :: xs) = _
      rw [show cmpZ [] (x :: xs) = if (x :: xs).all (fun y => y == 0)
          then Ordering.eq else Ordering.lt from rfl]
      by_cases hx : x = 0
      · subst hx
        rw [cmpZ_nil_right]
        have h2 : ((0 :: xs).all (fun y => y == 0)) = (xs.all (fun y => y == 0)) := by
          simp
        rw [h2]
        by_cases h : xs.all (fun y => y == 0) <;> simp [h, Ordering.swap]
      · have h1 : ((x :: xs).all (fun y => y == 0)) = false := by simp [hx]
        rw [h1, show cmpZ (x :: xs) [] = Ordering.gt by simp [cmpZ, hx]]
        rfl
    | cons y ys =>
      show cmpZ (y :: ys) (x :: xs) = (cmpZ (x :: xs) (y :: ys)).swap
      simp only [cmpZ]
      rcases Nat.lt_trichotomy x y with h | h | h
      · simp [h, Nat.lt_asymm h, Nat.ne_of_lt h, Ordering.swap]
      · subst h
        simp [Nat.lt_irrefl, ih ys]
      · simp [h, Nat.lt_asymm h, Ordering.swap]

theorem cmpZ_gt_iff (a : List Nat) :
    ∀ b, cmpZ a b = Ordering.gt ↔
      ∃ i, (∀ j, j < i → nthZ a j = nthZ b j) ∧ nthZ b i < nthZ a i := by
  induction a with
  | nil =>
    intro b
    constructor
    · intro h
      exfalso
      revert h
      show (if b.all (fun y => y == 0) then Ordering.eq else Ordering.lt) = _ → _
      by_cases hb : b.all (fun y => y == 0) <;> simp [hb]
    · rintro ⟨i, -, hlt⟩
      simp at hlt
  | cons x xs ih =>
    intro b
    cases b with
    | nil =>
      by_cases hx : x = 0
      · subst hx
        rw [show cmpZ (0 :: xs) [] = cmpZ xs [] by simp [cmpZ]]
        rw [ih []]
        constructor
        · rintro ⟨i, hpre, hlt⟩
          refine ⟨i + 1, fun j hj => ?_, by simpa using hlt⟩
          cases j with
          | zero => simp
          | succ k =>
            have := hpre k (by omega)
            simpa using this
        · rintro ⟨i, hpre, hlt⟩
          cases i with
          | zero => simp at hlt
          | succ k =>
            refine ⟨k, fun j hj => ?_, by simpa using hlt⟩
            have := hpre (j + 1) (by omega)
            simpa using this
      · rw [show cmpZ (x :: xs) [] = Ordering.gt by simp [cmpZ, hx]]
        simp only [true_iff]
        exact ⟨0, by omega, by simpa using Nat.pos_of_ne_zero hx⟩
    | cons y ys =>
      rcases Nat.lt_trichotomy x y with h | h | h
      · rw [show cmpZ (x :: xs) (y :: ys) = Ordering.lt by simp [cmpZ, h]]
        constructor
        · intro hc
          exact absurd hc (by simp)
        · rintro ⟨i, hpre, hlt⟩
          cases i with
          | zero =>
            simp only [nthZ_cons_zero] at hlt
            omega
          | succ k =>
            have := hpre 0 (by omega)
            simp only [nthZ_cons_zero] at this
            omega
      · subst h
        rw [show cmpZ (x :: xs) (x :: ys) = cmpZ xs ys by
          simp [cmpZ, Nat.lt_irrefl]]
        rw [ih ys]
        constructor
        · rintro ⟨i, hpre, hlt⟩
          refine ⟨i + 1, fun j hj => ?_, by simpa using hlt⟩
          cases j with
          | zero => simp
          | succ k =>
            have := hpre k (by omega)
            simpa using this
        · rintro ⟨i, hpre, hlt⟩
          cases i with
          | zero => simp at hlt
          | succ k =>
            refine ⟨k, fun j hj => ?_, by simpa using hlt⟩
            have := hpre (j + 1) (by omega)
            simpa using this
      · rw [show cmpZ (x :: xs) (y :: ys) = Ordering.gt by
          simp [cmpZ, h, Nat.lt_asymm h]]
        simp only [true_iff]
        exact ⟨0, by omega, by simpa using h⟩

theorem cmpZ_eq_iff (a : List Nat) :
    ∀ b, cmpZ a b = Ordering.eq ↔ ∀ i, nthZ a i = nthZ b i := by
  induction a with
  | nil =>
    intro b
    rw [show cmpZ [] b = if b.all (fun y => y == 0) then Ordering.eq
        else Ordering.lt from rfl]
    by_cases hb : b.all (fun y => y == 0)
    · simp only [hb, if_true, true_iff]
      intro i
      rw [nthZ_nil, ((allZero_iff_nthZ b).mp hb i)]
    · simp only [hb, if_false]
      constructor
      · intro h
        exact absurd h (by simp)
      · intro h
        exact absurd ((allZero_iff_nthZ b).mpr fun i => ((h i).symm.trans
          (by simp))) hb
  | cons x xs ih =>
    intro b
    cases b with
    | nil =>
      rw [cmpZ_nil_right]
      by_cases hz : (x :: xs).all (fun y => y == 0)
      · simp only [hz, if_true, true_iff]
        intro i
        rw [(allZero_iff_nthZ _).mp hz i, nthZ_nil]
      · simp only [hz, if_false]
        constructor
        · intro h
          exact absurd h (by simp)
        · intro h
          exact absurd ((allZero_iff_nthZ _).mpr fun i => (h i).trans
            (by simp)) hz
    | cons y ys =>
      rcases Nat.lt_trichotomy x y with h | h | h
      · rw [show cmpZ (x :: xs) (y :: ys) = Ordering.lt by simp [cmpZ, h]]
        constructor
        · intro hc
          exact absurd hc (by simp)
        · intro hc
          have := hc 0
          simp only [nthZ_cons_zero] at this
          omega
      · subst h
        rw [show cmpZ (x :: xs) (x :: ys) = cmpZ xs ys by
          simp [cmpZ, Nat.lt_irrefl]]
        rw [ih ys]
        constructor
        · intro hc i
          cases i with
          | zero => simp
          | succ k => simpa using hc k
        · intro hc i
          simpa using hc (i + 1)
      · rw [show cmpZ (x :: xs) (y :: ys) = Ordering.gt by
          simp [cmpZ, h, Nat.lt_asymm h]]
        constructor
        · intro hc
          exact absurd hc (by simp)
        · intro hc
          have := hc 0
          simp only [nthZ_cons_zero] at this
          omega

theorem cmpZ_gt_trans {a b c : List Nat} (h1 : cmpZ a b = Ordering.gt)
    (h2 : cmpZ b c = Ordering.gt) : cmpZ a c = Ordering.gt := by
  rw [cmpZ_gt_iff] at h1 h2 ⊢
  obtain ⟨i, pre1, lt1⟩ := h1
  obtain ⟨k, pre2, lt2⟩ := h2
  rcases Nat.lt_trichotomy i k with h | h | h
  · exact ⟨i, fun j hj => (pre1 j hj).trans (pre2 j (by omega)),
      by rw [← pre2 i h]; exact lt1⟩
  · subst h
    exact ⟨i, fun j hj => (pre1 j hj).trans (pre2 j hj), by omega⟩
  · exact ⟨k, fun j hj => (pre1 j (by omega)).trans (pre2 j hj),
      by rw [pre1 k h]; exact lt2⟩

theorem cmpZ_eq_trans {a b c : List Nat} (h1 : cmpZ a b = Ordering.eq)
    (h2 : cmpZ b c = Ordering.eq) : cmpZ a c = Ordering.eq := by
  rw [cmpZ_eq_iff] at h1 h2 ⊢
  exact fun i => (h1 i).trans (h2 i)

theorem cmpZ_gt_asymm {a b : List Nat} (h : cmpZ a b = Ordering.gt) :
    cmpZ b a = Ordering.lt := by
  rw [cmpZ_swap, h]
  rfl

/-! ## The release-tuple comparison of packaging equals the padded one -/

theorem dropTrailingZeros_nil : dropTrailingZeros [] = [] := rfl

theorem dropTrailingZeros_cons (x : Nat) (xs : List Nat) :
    dropTrailingZeros (x :: xs) =
      if dropTrailingZeros xs = [] then (if x = 0 then [] else [x])
      else x :: dropTrailingZeros xs := by
  unfold dropTrailingZeros
  rw [List.reverse_cons, List.dropWhile_append]
  by_cases h : (xs.reverse.dropWhile (fun z => z == 0)).isEmpty
  · have h2 : (xs.reverse.dropWhile (fun z => z == 0)).reverse = [] := by
      rw [List.isEmpty_iff] at h
      rw [h]
      rfl
    rw [if_pos h, if_pos h2]
    by_cases hx : x = 0
    · subst hx
      simp [List.dropWhile]
    · have hb : (x == 0) = false := by simpa using hx
      simp [List.dropWhile, hb, hx]
  · have h2 : ¬((xs.reverse.dropWhile (fun z => z == 0)).reverse = []) := by
      rw [List.isEmpty_iff] at h
      simpa using h
    rw [if_neg h, if_neg h2, List.reverse_append]
    rfl

theorem dropTrailingZeros_eq_nil_iff (l : List Nat) :
    dropTrailingZeros l = [] ↔ l.all (fun y => y == 0) = true := by
  induction l with
  | nil => simp [dropTrailingZeros]
  | cons x xs ih =>
    rw [dropTrailingZeros_cons]
    by_cases h : dropTrailingZeros xs = []
    · rw [if_pos h]
      have hall := ih.mp h
      by_cases hx : x = 0
      · simp [hx, hall]
      · simp [hx]
    · rw [if_neg h]
      constructor
      · intro hc
        exact absurd hc (by simp)
      · intro hc
        simp only [List.all_cons, Bool.and_eq_true, beq_iff_eq] at hc
        exact absurd (ih.mpr hc.2) h

theorem cmpZ_allZero_left {xs : List Nat} (h : xs.all (fun y => y == 0) = true)
    (ys : List Nat) :
    cmpZ xs ys =
      (if ys.all (fun y => y == 0) then Ordering.eq else Ordering.lt) := by
  by_cases hy : ys.all (fun y => y == 0) = true
  · rw [if_pos hy]
    exact (cmpZ_eq_iff xs ys).mpr fun i => by
      rw [(allZero_iff_nthZ xs).mp h i, (allZero_iff_nthZ ys).mp hy i]
  · rw [if_neg hy]
    cases hc : cmpZ xs ys with
    | lt => rfl
    | eq =>
      exfalso
      have := (cmpZ_eq_iff xs ys).mp hc
      exact hy ((allZero_iff_nthZ ys).mpr fun i =>
        ((this i).symm.trans ((allZero_iff_nthZ xs).mp h i)))
    | gt =>
      exfalso
      obtain ⟨i, -, hlt⟩ := (cmpZ_gt_iff xs ys).mp hc
      rw [(allZero_iff_nthZ xs).mp h i] at hlt
      omega

theorem cmpZ_allZero_right {ys : List Nat} (h : ys.all (fun y => y == 0) = true)
    (xs : List Nat) :
    cmpZ xs ys =
      (if xs.all (fun y => y == 0) then Ordering.eq else Ordering.gt) := by
  rw [cmpZ_swap ys xs, cmpZ_allZero_left h xs]
  by_cases hx : xs.all (fun y => y == 0) = true <;> simp [hx, Ordering.swap]

theorem cmpTuple_dropTrailingZeros (a : List Nat) :
    ∀ b, cmpTuple cmpNat (dropTrailingZeros a) (dropTrailingZeros b) =
      cmpZ a b := by
  induction a with
  | nil =>
    intro b
    rw [dropTrailingZeros_nil,
      show cmpZ [] b = if b.all (fun y => y == 0) then Ordering.eq
        else Ordering.lt from rfl]
    by_cases hb : b.all (fun y => y == 0) = true
    · rw [if_pos hb, (dropTrailingZeros_eq_nil_iff b).mpr hb]
      rfl
    · rw [if_neg hb]
      cases hd : dropTrailingZeros b with
      | nil => exact absurd ((dropTrailingZeros_eq_nil_iff b).mp hd) hb
      | cons y ys => rfl
  | cons x xs ih =>
    intro b
    cases b with
    | nil =>
      rw [cmpZ_nil_right, dropTrailingZeros_nil]
      by_cases ha : (x :: xs).all (fun y => y == 0) = true
      · rw [if_pos ha, (dropTrailingZeros_eq_nil_iff _).mpr ha]
        rfl
      · rw [if_neg ha]
        cases hd : dropTrailingZeros (x :: xs) with
        | nil => exact absurd ((dropTrailingZeros_eq_nil_iff _).mp hd) ha
        | cons z zs => rfl
    | cons y ys =>
      rw [show cmpZ (x :: xs) (y :: ys) = if x < y then Ordering.lt
          else if y < x then Ordering.gt else cmpZ xs ys from rfl]
      rw [dropTrailingZeros_cons x xs, dropTrailingZeros_cons y ys]
      rcases Nat.lt_trichotomy x y with h | h | h
      · rw [if_pos h]
        have hyne : ¬ y = 0 := by omega
        have hB : (if dropTrailingZeros ys = [] then (if y = 0 then [] else [y])
            else y :: dropTrailingZeros ys) =
              y :: (if dropTrailingZeros ys = [] then []
                else dropTrailingZeros ys) := by
          by_cases hy : dropTrailingZeros ys = [] <;> simp [hy, hyne]
        rw [hB]
        by_cases hx : dropTrailingZeros xs = []
        · by_cases hx0 : x = 0
          · simp [hx, hx0, cmpTuple]
          · simp [hx, hx0, cmpTuple, cmpNat, h, Ordering.then]
        · simp [hx, cmpTuple, cmpNat, h, Ordering.then]
      · subst h
        rw [if_neg (Nat.lt_irrefl x), if_neg (Nat.lt_irrefl x)]
        by_cases hx : dropTrailingZeros xs = [] <;>
          by_cases hy : dropTrailingZeros ys = []
        · have hxall := (dropTrailingZeros_eq_nil_iff xs).mp hx
          have hyall := (dropTrailingZeros_eq_nil_iff ys).mp hy
          rw [cmpZ_allZero_left hxall ys, if_pos hyall, if_pos hx, if_pos hy]
          by_cases hx0 : x = 0 <;> simp [hx0, cmpTuple, cmpNat, Ordering.then]
        · have hxall := (dropTrailingZeros_eq_nil_iff xs).mp hx
          have hyall : ¬(ys.all (fun y => y == 0) = true) := fun hc =>
            hy ((dropTrailingZeros_eq_nil_iff ys).mpr hc)
          rw [cmpZ_allZero_left hxall ys, if_neg hyall, if_pos hx, if_neg hy]
          cases hd : dropTrailingZeros ys with
          | nil => exact absurd hd hy
          | cons z zs =>
            by_cases hx0 : x = 0
            · simp [hx0, cmpTuple]
            · simp [hx0, cmpTuple, cmpNat, Ordering.then]
        · have hyall := (dropTrailingZeros_eq_nil_iff ys).mp hy
          have hxall : ¬(xs.all (fun y => y == 0) = true) := fun hc =>
            hx ((dropTrailingZeros_eq_nil_iff xs).mpr hc)
          rw [cmpZ_allZero_right hyall xs, if_neg hxall, if_neg hx, if_pos hy]
          cases hd : dropTrailingZeros xs with
          | nil => exact absurd hd hx
          | cons z zs =>
            by_cases hx0 : x = 0
            · simp [hx0, cmpTuple]
            · simp [hx0, cmpTuple, cmpNat, Ordering.then]
        · rw [if_neg hx, if_neg hy]
          simp only [cmpTuple, cmpNat, Nat.lt_irrefl, if_neg (Nat.lt_irrefl x)]
          rw [ih ys]
          cases cmpZ xs ys <;> rfl
      · have hnlt : ¬ x < y := by omega
        have hxne : ¬ x = 0 := by omega
        rw [if_neg hnlt, if_pos h]
        have hA : (if dropTrailingZeros xs = [] then (if x = 0 then [] else [x])
            else x :: dropTrailingZeros xs) =
              x :: (if dropTrailingZeros xs = [] then []
                else dropTrailingZeros xs) := by
          by_cases hx : dropTrailingZeros xs = [] <;> simp [hx, hxne]
        rw [hA]
        by_cases hy : dropTrailingZeros ys = []
        · by_cases hy0 : y = 0
          · simp [hy, hy0, cmpTuple]
          · simp [hy, hy0, cmpTuple, cmpNat, h, hnlt, Ordering.then]
        · simp [hy, cmpTuple, cmpNat, h, hnlt, Ordering.then]

/-! ## The comparator on strings that parse numerically -/

theorem cmpPepVersion_plain (pa pb : List Nat) :
    cmpPepVersion
      { epoch := 0, release := pa, pre := none, post := none, dev := none,
        localSegs := none }
      { epoch := 0, release := pb, pre := none, post := none, dev := none,
        localSegs := none } = cmpZ pa pb := by
  unfold cmpPepVersion
  rw [cmpTuple_dropTrailingZeros pa pb]
  cases cmpZ pa pb <;> rfl

theorem is_version_newer_parse {a b : String} {pa pb : List Nat}
    (ha : pep440Release a = some pa) (hb : pep440Release b = some pb) :
    is_version_newer a b = (cmpZ pa pb == Ordering.gt) := by
  have hva : version_parse a = some
      { epoch := 0, release := pa, pre := none, post := none, dev := none,
        localSegs := none } := by
    rw [version_parse, ha]
  have hvb : version_parse b = some
      { epoch := 0, release := pb, pre := none, post := none, dev := none,
        localSegs := none } := by
    rw [version_parse, hb]
  simp [is_version_newer, hva, hvb, cmpPepVersion_plain]

theorem compareVersions_parse {a b : String} {pa pb : List Nat}
    (ha : pep440Release a = some pa) (hb : pep440Release b = some pb) :
    compareVersions a b = cmpZ pa pb := by
  rw [compareVersions, is_version_newer_parse ha hb, is_version_newer_parse hb ha,
    cmpZ_swap pa pb]
  cases h : cmpZ pa pb <;> rfl

/-! ## Lemmas about the exe flag cascade -/

theorem exeCascade_all_fail (run : List String → ExecResult) (file : String) :
    ∀ ps : List String, (∀ p ∈ ps, isSuccessCode (run [file, p]) = false) →
    exeCascade run file ps =
      (install_interactive run file, ps.map (fun p => [file, p]) ++ [[file]]) := by
  intro ps
  induction ps with
  | nil => intro _; rfl
  | cons p rest ih =>
    intro h
    have hp : isSuccessCode (run [file, p]) = false := h p (by simp)
    have hrest : ∀ q ∈ rest, isSuccessCode (run [file, q]) = false :=
      fun q hq => h q (by simp [hq])
    simp only [exeCascade]
    cases hr : run [file, p] with
    | exited code =>
      have hcode : (code == 0 || code == 3010) = false := by
        rw [hr] at hp
        simpa [isSuccessCode] using hp
      simp [hcode, ih hrest]
    | timeout => simp [ih hrest]
    | raised => simp [ih hrest]

theorem exeCascade_stop (run : List String → ExecResult) (file : String)
    (p : String) (rs : List String)
    (hp : isSuccessCode (run [file, p]) = true) :
    ∀ qs : List String, (∀ q ∈ qs, isSuccessCode (run [file, q]) = false) →
    exeCascade run file (qs ++ p :: rs) =
      (true, (qs ++ [p]).map (fun q => [file, q])) := by
  intro qs
  induction qs with
  | nil =>
    intro _
    simp only [List.nil_append, exeCascade]
    cases hr : run [file, p] with
    | exited code =>
      have hcode : (code == 0 || code == 3010) = true := by
        rw [hr] at hp
        simpa [isSuccessCode] using hp
      simp [hcode]
    | timeout =>
      rw [hr] at hp
      simp [isSuccessCode] at hp
    | raised =>
      rw [hr] at hp
      simp [isSuccessCode] at hp
  | cons q rest ih =>
    intro h
    have hq : isSuccessCode (run [file, q]) = false := h q (by simp)
    have hrest : ∀ r ∈ rest, isSuccessCode (run [file, r]) = false :=
      fun r hr => h r (by simp [hr])
    simp only [List.cons_append, exeCascade]
    cases hr : run [file, q] with
    | exited code =>
      have hcode : (code == 0 || code == 3010) = false := by
        rw [hr] at hq
        simpa [isSuccessCode] using hq
      simp [hcode, ih hrest]
    | timeout => simp [ih hrest]
    | raised => simp [ih hrest]

/-! ## Lemmas about the batch loop -/

theorem installLoop_map_fst {α : Type} (step : α → StepResult) :
    ∀ us : List α, ((installLoop step us).2).map Prod.fst = us := by
  intro us
  induction us with
  | nil => rfl
  | cons u rest ih => simp [installLoop, ih]

theorem installLoop_count {α : Type} (step : α → StepResult) :
    ∀ us : List α,
      (installLoop step us).1 =
        ((installLoop step us).2.filter (fun o => o.2)).length := by
  intro us
  induction us with
  | nil => rfl
  | cons u rest ih =>
    simp only [installLoop]
    cases h : stepSucceeded (step u) <;> simp [h, ih]

/-! ## Lemma about the archive walk -/

theorem zipWalk_map_fst (infInstall : String → Bool) :
    ∀ files : List String,
      (zipWalk infInstall files).map Prod.fst = files.filter isDriverInfoFile := by
  intro files
  induction files with
  | nil => rfl
  | cons f rest ih =>
    simp only [zipWalk]
    cases h : isDriverInfoFile f <;> simp [h, ih]

/-! ## Lemmas about deduplication -/

theorem removeDupAux_filter (k : String × String) :
    ∀ (l : List ScanRecord) (seen : List (String × String)),
      (removeDupAux seen l).filter (fun d => decide (recKey d = k)) =
        if k ∈ seen then []
        else (l.filter (fun d => decide (recKey d = k))).take 1 := by
  intro l
  induction l with
  | nil =>
    intro seen
    by_cases h : k ∈ seen <;> simp [removeDupAux, h]
  | cons d rest ih =>
    intro seen
    by_cases hd : recKey d ∈ seen
    · rw [show removeDupAux seen (d :: rest) = removeDupAux seen rest by
        simp [removeDupAux, hd]]
      rw [ih seen]
      by_cases hk : k ∈ seen
      · simp [hk]
      · have hne : ¬(recKey d = k) := fun he => hk (he ▸ hd)
        simp only [if_neg hk, List.filter_cons, decide_eq_true_eq, if_neg hne]
    · rw [show removeDupAux seen (d :: rest) =
          d :: removeDupAux (recKey d :: seen) rest by simp [removeDupAux, hd]]
      simp only [List.filter_cons, decide_eq_true_eq]
      by_cases hdk : recKey d = k
      · rw [if_pos hdk, if_pos hdk, ih (recKey d :: seen)]
        rw [if_pos (by simp [hdk] : k ∈ recKey d :: seen)]
        have hks : k ∉ seen := hdk ▸ hd
        rw [if_neg hks]
        simp
      · rw [if_neg hdk, if_neg hdk, ih (recKey d :: seen)]
        have hmem : (k ∈ recKey d :: seen) ↔ (k ∈ seen) := by
          simp only [List.mem_cons]
          exact ⟨fun h => h.resolve_left (fun he => hdk he.symm), Or.inr⟩
        by_cases hk : k ∈ seen
        · rw [if_pos (hmem.mpr hk), if_pos hk]
        · rw [if_neg (fun hc => hk (hmem.mp hc)), if_neg hk]

theorem removeDupAux_nodup :
    ∀ (l : List ScanRecord) (seen : List (String × String)),
      ((removeDupAux seen l).map recKey).Nodup ∧
        ∀ r ∈ removeDupAux seen l, recKey r ∉ seen := by
  intro l
  induction l with
  | nil => intro seen; simp [removeDupAux]
  | cons d rest ih =>
    intro seen
    by_cases hd : recKey d ∈ seen
    · rw [show removeDupAux seen (d :: rest) = removeDupAux seen rest by
        simp [removeDupAux, hd]]
      exact ih seen
    · rw [show removeDupAux seen (d :: rest) =
          d :: removeDupAux (recKey d :: seen) rest by simp [removeDupAux, hd]]
      obtain ⟨hnd, hmem⟩ := ih (recKey d :: seen)
      refine ⟨?_, ?_⟩
      · simp only [List.map_cons, List.nodup_cons]
        refine ⟨?_, hnd⟩
        intro hin
        obtain ⟨r, hr, hkey⟩ := List.mem_map.mp hin
        exact hmem r hr (by simp [hkey])
      · intro r hr
        rcases List.mem_cons.mp hr with h | h
        · subst h; exact hd
        · intro hseen
          exact hmem r h (by simp [hseen])

theorem removeDupAux_subset :
    ∀ (l : List ScanRecord) (seen : List (String × String)),
      ∀ r ∈ removeDupAux seen l, r ∈ l := by
  intro l
  induction l with
  | nil => intro seen r hr; simp [removeDupAux] at hr
  | cons d rest ih =>
    intro seen r hr
    by_cases hd : recKey d ∈ seen
    · rw [show removeDupAux seen (d :: rest) = removeDupAux seen rest by
        simp [removeDupAux, hd]] at hr
      exact List.mem_cons_of_mem d (ih seen r hr)
    · rw [show removeDupAux seen (d :: rest) =
          d :: removeDupAux (recKey d :: seen) rest by simp [removeDupAux, hd]] at hr
      rcases List.mem_cons.mp hr with h | h
      · exact h ▸ List.mem_cons_self d rest
      · exact List.mem_cons_of_mem d (ih (recKey d :: seen) r h)

/-! ## Lemmas about the filename sanitizer -/

theorem mem_foldl_replaceChar :
    ∀ (cs s : List Char) (x : Char),
      x ∈ cs.foldl replaceChar s → (x ∈ s ∧ x ∉ cs) ∨ x = '_' := by
  intro cs
  induction cs with
  | nil =>
    intro s x hx
    exact Or.inl ⟨hx, by simp⟩
  | cons c rest ih =>
    intro s x hx
    rw [List.foldl_cons] at hx
    rcases ih (replaceChar s c) x hx with ⟨hmem, hnotin⟩ | heq
    · obtain ⟨y, hy, hyx⟩ := List.mem_map.mp hmem
      by_cases hyc : y = c
      · rw [if_pos hyc] at hyx
        exact Or.inr hyx.symm
      · rw [if_neg hyc] at hyx
        subst hyx
        refine Or.inl ⟨hy, fun hmm => ?_⟩
        rcases List.mem_cons.mp hmm with h | h
        · exact hyc h
        · exact hnotin h
    · exact Or.inr heq

theorem head?_dropWhile_false (p : Char → Bool) :
    ∀ (l : List Char) (c : Char), (l.dropWhile p).head? = some c → p c = false := by
  intro l
  induction l with
  | nil =>
    intro c h
    simp [List.dropWhile] at h
  | cons a rest ih =>
    intro c h
    rw [List.dropWhile_cons] at h
    by_cases hp : p a = true
    · rw [if_pos hp] at h
      exact ih c h
    · rw [if_neg hp] at h
      simp only [List.head?_cons, Option.some.injEq] at h
      subst h
      exact Bool.eq_false_iff.mpr hp

/-- The second `dropWhile` of `pyStrip` only removes a suffix: the once
left-stripped list is the strip result followed by the removed whitespace
tail. -/
theorem pyStrip_decomp (s : List Char) :
    s.dropWhile Char.isWhitespace =
      pyStrip s ++
        (((s.dropWhile Char.isWhitespace).reverse.takeWhile
          Char.isWhitespace)).reverse := by
  have h := List.takeWhile_append_dropWhile
    (p := Char.isWhitespace) (l := (s.dropWhile Char.isWhitespace).reverse)
  have h2 := congrArg List.reverse h
  rw [List.reverse_append, List.reverse_reverse] at h2
  exact h2.symm

theorem mem_pyStrip (s : List Char) (x : Char) (hx : x ∈ pyStrip s) : x ∈ s := by
  have h1 : x ∈ s.dropWhile Char.isWhitespace := by
    rw [pyStrip_decomp s]
    exact List.mem_append_left _ hx
  have h2 := List.takeWhile_append_dropWhile (p := Char.isWhitespace) (l := s)
  rw [← h2]
  exact List.mem_append_right _ h1

theorem length_pyStrip_le (s : List Char) : (pyStrip s).length ≤ s.length := by
  have h1 : (pyStrip s).length ≤ (s.dropWhile Char.isWhitespace).length := by
    rw [pyStrip, List.length_reverse]
    calc ((s.dropWhile Char.isWhitespace).reverse.dropWhile
            Char.isWhitespace).length
        ≤ (s.dropWhile Char.isWhitespace).reverse.length :=
          List.Sublist.length_le (List.dropWhile_sublist _)
      _ = (s.dropWhile Char.isWhitespace).length := List.length_reverse _
  exact h1.trans (List.Sublist.length_le (List.dropWhile_sublist _))

theorem head?_pyStrip (s : List Char) (c : Char)
    (h : (pyStrip s).head? = some c) : c.isWhitespace = false := by
  cases hps : pyStrip s with
  | nil => rw [hps] at h; simp at h
  | cons a u =>
    rw [hps] at h
    simp only [List.head?_cons, Option.some.injEq] at h
    subst h
    have hd : (s.dropWhile Char.isWhitespace).head? = some a := by
      rw [pyStrip_decomp s, hps]
      rfl
    exact head?_dropWhile_false Char.isWhitespace s a hd

theorem getLast?_pyStrip (s : List Char) (c : Char)
    (h : (pyStrip s).getLast? = some c) : c.isWhitespace = false := by
  rw [pyStrip, List.getLast?_reverse] at h
  exact head?_dropWhile_false Char.isWhitespace
    (s.dropWhile Char.isWhitespace).reverse c h

/-! ## Claim theorems -/

/-- C10: for every input string, `_sanitize_filename` returns a string with
none of the characters `<>:"/\|?*` (each replaced by an underscore), of
length at most 50, with no leading or trailing whitespace. -/
theorem sanitize_filename_ok (f : String) :
    ((sanitize_filename f).data.all (fun c => decide (c ∉ invalid_chars))) = true
    ∧ (sanitize_filename f).length ≤ 50
    ∧ ((sanitize_filename f).data.head?.all (fun c => !c.isWhitespace)) = true
    ∧ ((sanitize_filename f).data.getLast?.all (fun c => !c.isWhitespace)) = true := by
  have hdata : (sanitize_filename f).data =
      pyStrip ((invalid_chars.foldl replaceChar f.data).take 50) := rfl
  refine ⟨?_, ?_, ?_, ?_⟩
  · rw [List.all_eq_true]
    intro x hx
    rw [hdata] at hx
    have hx2 : x ∈ (invalid_chars.foldl replaceChar f.data).take 50 :=
      mem_pyStrip _ x hx
    have hx3 : x ∈ invalid_chars.foldl replaceChar f.data :=
      List.mem_of_mem_take hx2
    rcases mem_foldl_replaceChar invalid_chars f.data x hx3 with ⟨-, hnot⟩ | heq
    · simpa using hnot
    · subst heq
      decide
  · show (sanitize_filename f).data.length ≤ 50
    rw [hdata]
    exact (length_pyStrip_le _).trans (by simp)
  · rw [hdata]
    cases hh : (pyStrip ((invalid_chars.foldl replaceChar f.data).take 50)).head? with
    | none => rfl
    | some c =>
      have := head?_pyStrip _ c hh
      simp [Option.all, this]
  · rw [hdata]
    cases hh : (pyStrip ((invalid_chars.foldl replaceChar f.data).take 50)).getLast? with
    | none => rfl
    | some c =>
      have := getLast?_pyStrip _ c hh
      simp [Option.all, this]

/-- Two sample records sharing the `(device_id, driver_path)` key, and a
third with a distinct key. -/
def sampleRecA : ScanRecord :=
  { device_name := "NVIDIA GeForce", device_id := "PCI\\VEN_10DE",
    driver_path := "C:\\drivers\\nv.sys", version := "1.0" }

def sampleRecB : ScanRecord :=
  { device_name := "NVIDIA GeForce (dup)", device_id := "PCI\\VEN_10DE",
    driver_path := "C:\\drivers\\nv.sys", version := "2.0" }

def sampleRecC : ScanRecord :=
  { device_name := "Realtek Audio", device_id := "HDAUDIO\\FUNC_01",
    driver_path := "C:\\drivers\\rt.sys", version := "1.0" }

/-- C9: `_remove_duplicates` keeps exactly the first-seen record for each
`(device_id, driver_path)` key: no two output records share the key, for
every key the output retains precisely the first matching input record, every
output record comes from the input, and on a concrete input with two records
sharing the key only the first survives. -/
theorem dedup_first_seen (l : List ScanRecord) (k : String × String) :
    ((remove_duplicates l).map recKey).Nodup
    ∧ (remove_duplicates l).filter (fun d => decide (recKey d = k)) =
        (l.filter (fun d => decide (recKey d = k))).take 1
    ∧ (∀ r ∈ remove_duplicates l, r ∈ l)
    ∧ remove_duplicates [sampleRecA, sampleRecB, sampleRecC] =
        [sampleRecA, sampleRecC] := by
  refine ⟨(removeDupAux_nodup l []).1, ?_, removeDupAux_subset l [], by decide⟩
  have h := removeDupAux_filter k l []
  simpa using h

theorem cmpZ_gt_iff_lt (a b : List Nat) :
    cmpZ a b = Ordering.gt ↔ cmpZ b a = Ordering.lt := by
  rw [cmpZ_swap a b]
  cases cmpZ a b <;> simp [Ordering.swap]

theorem ordering_beq_gt (o : Ordering) :
    ((o == Ordering.gt) = true) ↔ o = Ordering.gt := by
  cases o <;> decide

/-- The comparator reports neither direction as newer when strict numeric
parsing fails for one side and the integer fallback fails for one side. -/
theorem is_version_newer_fallback_none (a b : String)
    (hfail : version_parse a = none ∨ version_parse b = none)
    (hfail2 : pyIntParts a = none ∨ pyIntParts b = none) :
    is_version_newer a b = false := by
  unfold is_version_newer
  rcases hfail with h | h <;> rcases hfail2 with h2 | h2 <;> simp [h, h2]

/-- C3: for version strings that parse as dot-separated sequences of
non-negative integers, `_is_version_newer` compares component-wise in order
with missing trailing components read as zero; in particular
`compare("1.2", "1.2.0") == EQUAL` (neither direction is newer) and
`compare("2.0.0.0", "1.9.9.9") == GREATER`. -/
theorem comparator_componentwise (a b : String) (pa pb : List Nat)
    (ha : pep440Release a = some pa) (hb : pep440Release b = some pb) :
    (is_version_newer a b = true ↔
      ∃ i, (∀ j, j < i → nthZ pa j = nthZ pb j) ∧ nthZ pb i < nthZ pa i)
    ∧ compareVersions "1.2" "1.2.0" = Ordering.eq
    ∧ is_version_newer "1.2" "1.2.0" = false
    ∧ is_version_newer "1.2.0" "1.2" = false
    ∧ compareVersions "2.0.0.0" "1.9.9.9" = Ordering.gt
    ∧ is_version_newer "2.0.0.0" "1.9.9.9" = true := by
  refine ⟨?_, by decide, by decide, by decide, by decide, by decide⟩
  rw [is_version_newer_parse ha hb]
  exact (ordering_beq_gt _).trans (cmpZ_gt_iff pa pb)

/-- Witness for C3 at `"1.2"` and `"1.2.0"`. -/
theorem comparator_componentwise_witness :
    (is_version_newer "1.2" "1.2.0" = true ↔
      ∃ i, (∀ j, j < i → nthZ [1, 2] j = nthZ [1, 2, 0] j) ∧
        nthZ [1, 2, 0] i < nthZ [1, 2] i)
    ∧ compareVersions "1.2" "1.2.0" = Ordering.eq
    ∧ is_version_newer "1.2" "1.2.0" = false
    ∧ is_version_newer "1.2.0" "1.2" = false
    ∧ compareVersions "2.0.0.0" "1.9.9.9" = Ordering.gt
    ∧ is_version_newer "2.0.0.0" "1.9.9.9" = true :=
  comparator_componentwise "1.2" "1.2.0" [1, 2] [1, 2, 0] (by decide) (by decide)

/-- C4: on strings that decompose numerically the comparator is
antisymmetric — `compare(a,b) == GREATER` exactly when
`compare(b,a) == LESS`, so `isNewer(a,b)` excludes `isNewer(b,a)` — and
transitive in each of its three outcomes. -/
theorem comparator_antisym_trans (a b c : String) (pa pb pc : List Nat)
    (ha : pep440Release a = some pa) (hb : pep440Release b = some pb)
    (hc : pep440Release c = some pc) :
    (compareVersions a b = Ordering.gt ↔ compareVersions b a = Ordering.lt)
    ∧ (is_version_newer a b = true → is_version_newer b a = false)
    ∧ (compareVersions a b = Ordering.gt → compareVersions b c = Ordering.gt →
        compareVersions a c = Ordering.gt)
    ∧ (compareVersions a b = Ordering.lt → compareVersions b c = Ordering.lt →
        compareVersions a c = Ordering.lt)
    ∧ (compareVersions a b = Ordering.eq → compareVersions b c = Ordering.eq →
        compareVersions a c = Ordering.eq) := by
  have hab := compareVersions_parse ha hb
  have hba := compareVersions_parse hb ha
  have hbc := compareVersions_parse hb hc
  have hac := compareVersions_parse ha hc
  refine ⟨?_, ?_, ?_, ?_, ?_⟩
  · rw [hab, hba]
    exact cmpZ_gt_iff_lt pa pb
  · intro h
    rw [is_version_newer_parse ha hb] at h
    rw [is_version_newer_parse hb ha, cmpZ_gt_asymm ((ordering_beq_gt _).mp h)]
    rfl
  · rw [hab, hbc, hac]
    exact fun h1 h2 => cmpZ_gt_trans h1 h2
  · rw [hab, hbc, hac]
    intro h1 h2
    exact (cmpZ_gt_iff_lt pc pa).mp
      (cmpZ_gt_trans ((cmpZ_gt_iff_lt pc pb).mpr h2) ((cmpZ_gt_iff_lt pb pa).mpr h1))
  · rw [hab, hbc, hac]
    exact fun h1 h2 => cmpZ_eq_trans h1 h2

/-- Witness for C4 at `"2.0"`, `"1.5"`, `"1.0"`. -/
theorem comparator_antisym_trans_witness :
    (compareVersions "2.0" "1.5" = Ordering.gt ↔
      compareVersions "1.5" "2.0" = Ordering.lt)
    ∧ (is_version_newer "2.0" "1.5" = true → is_version_newer "1.5" "2.0" = false)
    ∧ (compareVersions "2.0" "1.5" = Ordering.gt →
        compareVersions "1.5" "1.0" = Ordering.gt →
        compareVersions "2.0" "1.0" = Ordering.gt)
    ∧ (compareVersions "2.0" "1.5" = Ordering.lt →
        compareVersions "1.5" "1.0" = Ordering.lt →
        compareVersions "2.0" "1.0" = Ordering.lt)
    ∧ (compareVersions "2.0" "1.5" = Ordering.eq →
        compareVersions "1.5" "1.0" = Ordering.eq →
        compareVersions "2.0" "1.0" = Ordering.eq) :=
  comparator_antisym_trans "2.0" "1.5" "1.0" [2, 0] [1, 5] [1, 0]
    (by decide) (by decide) (by decide)

/-- C2 counterexample: the spec says that when strict numeric parsing fails
the comparator "falls back to comparing the dot-separated tokens as
strings"; at `("b.2", "a.2")` — where numeric parsing fails for both sides —
the string-token comparison reports GREATER while the code reports neither
direction newer (its fallback re-parses the tokens as integers and fails),
so the described fallback disagrees with the code. -/
theorem comparator_fallback_not_string_compare_cex :
    pep440Release "b.2" = none
    ∧ pep440Release "a.2" = none
    ∧ specStringTokenGT "b.2" "a.2" = true
    ∧ is_version_newer "b.2" "a.2" = false
    ∧ is_version_newer "b.2" "a.2" ≠ specStringTokenGT "b.2" "a.2" := by
  refine ⟨by decide, by decide, by decide, by decide, by decide⟩

/-- C2 amended: the comparator is total; when strict numeric parsing
(`packaging.version.parse`, modelled in full by `version_parse`) fails for
either string it re-parses the dot-separated tokens as Python integers (not
strings), and when that fallback also fails for either string neither
direction is reported newer, so the result is EQUAL — in particular
`compare("abc", "1.0") == EQUAL`. -/
theorem comparator_fallback_amended (a b : String)
    (hfail : version_parse a = none ∨ version_parse b = none)
    (hfail2 : pyIntParts a = none ∨ pyIntParts b = none) :
    is_version_newer a b = false
    ∧ is_version_newer b a = false
    ∧ compareVersions a b = Ordering.eq
    ∧ compareVersions "abc" "1.0" = Ordering.eq
    ∧ is_version_newer "abc" "1.0" = false
    ∧ is_version_newer "1.0" "abc" = false := by
  have h1 := is_version_newer_fallback_none a b hfail hfail2
  have h2 := is_version_newer_fallback_none b a hfail.symm hfail2.symm
  refine ⟨h1, h2, ?_, by decide, by decide, by decide⟩
  rw [compareVersions, h1, h2]
  rfl

/-- Witness for C2's amended claim at `("abc", "1.0")`. -/
theorem comparator_fallback_amended_witness :
    is_version_newer "abc" "1.0" = false
    ∧ is_version_newer "1.0" "abc" = false
    ∧ compareVersions "abc" "1.0" = Ordering.eq
    ∧ compareVersions "abc" "1.0" = Ordering.eq
    ∧ is_version_newer "abc" "1.0" = false
    ∧ is_version_newer "1.0" "abc" = false :=
  comparator_fallback_amended "abc" "1.0" (Or.inl (by decide)) (Or.inl (by decide))

/-- C1: the microsoft and generic strategies emit a candidate without the
`_is_version_newer` guard the other strategies apply; on a record whose
version is the legitimate inventory value `"Unknown"`, with the random draw
below the threshold, both return a candidate whose `new_version`
(`"1.0.0.1"`) does not compare newer than `current_version` — violating the
spec's invariant that such a candidate must not be produced. -/
theorem microsoft_generic_emit_non_newer :
    (∃ u, check_microsoft_updates
        { device_name := "PCI Device", manufacturer := "Microsoft",
          hardware_id := "", version := "Unknown" } true = some u
      ∧ u.new_version = "1.0.0.1" ∧ u.current_version = "Unknown"
      ∧ is_version_newer u.new_version u.current_version = false)
    ∧ (∃ u, check_generic_updates
        { device_name := "Legacy Device", manufacturer := "Contoso",
          hardware_id := "", version := "Unknown" } true = some u
      ∧ is_version_newer u.new_version u.current_version = false) := by
  refine ⟨⟨_, rfl, by decide, by decide, by decide⟩, ⟨_, rfl, by decide⟩⟩

/-- C5: a `.exe` payload whose every silent-flag attempt (and the no-flag
fallback) times out ends in failure after attempting each of the eight flags
exactly once, in order, followed by the single no-flag run; and whenever a
flag attempt exits with code 0 or 3010 after only failed attempts, the
cascade stops there with success. -/
theorem exe_cascade_timeout_failed (run : List String → ExecResult)
    (file : String)
    (hall : ∀ p ∈ silent_params, run [file, p] = ExecResult.timeout)
    (hfb : run [file] = ExecResult.timeout) :
    install_exe_driver run file =
      (false, silent_params.map (fun p => [file, p]) ++ [[file]])
    ∧ silent_params.Nodup
    ∧ (∀ p ∈ silent_params,
        ((install_exe_driver run file).2.filter
          (fun c => decide (c = [file, p]))).length = 1)
    ∧ (∀ (run2 : List String → ExecResult) (qs : List String) (p : String)
          (rs : List String), silent_params = qs ++ p :: rs →
        (∀ q ∈ qs, isSuccessCode (run2 [file, q]) = false) →
        isSuccessCode (run2 [file, p]) = true →
        install_exe_driver run2 file = (true, (qs ++ [p]).map (fun q => [file, q]))) := by
  have hfail : ∀ p ∈ silent_params, isSuccessCode (run [file, p]) = false := by
    intro p hp
    rw [hall p hp]
    rfl
  have hinter : install_interactive run file = false := by
    rw [install_interactive, hfb]
  have hmain : install_exe_driver run file =
      (false, silent_params.map (fun p => [file, p]) ++ [[file]]) := by
    rw [install_exe_driver, exeCascade_all_fail run file silent_params hfail, hinter]
  refine ⟨hmain, by decide, ?_, ?_⟩
  · intro p hp
    rw [hmain]
    have hsingle : (([[file]] : List (List String)).filter
        (fun c => decide (c = [file, p]))).length = 0 := by
      simp
    have hpair : ∀ l : List String,
        ((l.map (fun q => [file, q])).filter
          (fun c => decide (c = [file, p]))).length =
        (l.filter (fun q => decide (q = p))).length := by
      intro l
      induction l with
      | nil => rfl
      | cons a rest ih =>
        by_cases h : a = p <;> simp [h, List.filter_cons, ih]
    rw [List.filter_append, List.length_append, hsingle, hpair]
    fin_cases hp <;> decide
  · intro run2 qs p rs heq hqs hp
    rw [install_exe_driver, heq]
    exact exeCascade_stop run2 file p rs hp qs hqs

/-- Witness for C5: a payload that times out under every invocation. -/
theorem exe_cascade_timeout_failed_witness :
    install_exe_driver (fun _ => ExecResult.timeout) "driver.exe" =
      (false, silent_params.map (fun p => ["driver.exe", p]) ++ [["driver.exe"]]) :=
  (exe_cascade_timeout_failed (fun _ => ExecResult.timeout) "driver.exe"
    (fun _ _ => rfl) rfl).1

/-- C6: the batch orchestrator records one outcome per candidate in input
order, counts as succeeded exactly the candidates whose installation
returned `True` (an exception counts as failure and does not stop the
batch), and on three candidates where the second raises and the others
succeed returns a success count of 2 out of 3 outcomes. -/
theorem batch_orchestrator_outcomes {α : Type} (restore_ok : Bool)
    (step : α → StepResult) (updates : List α) (u1 u2 u3 : α)
    (h1 : step u1 = StepResult.ok true) (h2 : step u2 = StepResult.raised)
    (h3 : step u3 = StepResult.ok true) :
    ((install_updates restore_ok step updates).2.map Prod.fst = updates)
    ∧ ((install_updates restore_ok step updates).1 =
        ((install_updates restore_ok step updates).2.filter (fun o => o.2)).length)
    ∧ ((install_updates restore_ok step updates).2.length = updates.length)
    ∧ install_updates restore_ok step [u1, u2, u3] =
        (2, [(u1, true), (u2, false), (u3, true)]) := by
  refine ⟨installLoop_map_fst step updates, installLoop_count step updates, ?_, ?_⟩
  · calc (installLoop step updates).2.length
        = ((installLoop step updates).2.map Prod.fst).length := by
          rw [List.length_map]
      _ = updates.length := by rw [installLoop_map_fst step updates]
  · simp [install_updates, installLoop, h1, h2, h3, stepSucceeded]

/-- Witness for C6: three concrete candidates, the second raising. -/
theorem batch_orchestrator_outcomes_witness :
    install_updates false
        (fun n => if n == 2 then StepResult.raised else StepResult.ok true)
        [1, 2, 3] = (2, [(1, true), (2, false), (3, true)]) :=
  (batch_orchestrator_outcomes false
    (fun n => if n == 2 then StepResult.raised else StepResult.ok true)
    [1, 2, 3] 1 2 3 (by decide) (by decide) (by decide)).2.2.2

/-- C7: for a `.zip` payload whose extraction completes, the archive
strategy reports success whatever the inner driver-information installations
return; it attempts exactly the `.inf`/`.sys`/`.cat` files found, and only a
failed extraction yields failure. -/
theorem zip_archive_lenient_success (files : List String)
    (infInstall : String → Bool) :
    (install_zip_driver_interactive true files infInstall).1 = true
    ∧ ((install_zip_driver_interactive true files infInstall).2.map Prod.fst =
        files.filter isDriverInfoFile)
    ∧ ((install_zip_driver_interactive true files (fun _ => false)).1 =
        (install_zip_driver_interactive true files (fun _ => true)).1)
    ∧ (install_zip_driver_interactive false files infInstall).1 = false := by
  refine ⟨rfl, ?_, rfl, rfl⟩
  simpa [install_zip_driver_interactive] using zipWalk_map_fst infInstall files

/-- C8 counterexample: an expected size of `"0 MB"` is given and parses to
zero bytes, a 1 MB payload is not within 10% of it, yet verification
accepts the payload (the code's `if expected_bytes:` treats a zero byte
count as "no check"). -/
theorem verify_download_zero_size_cex :
    verify_download true 1000000 "driver.exe" (some "0 MB") = true
    ∧ parse_size_string "0 MB" = some 0
    ∧ 10 * ((1000000 : Int) - (0 : Int)).natAbs > 0 := by
  refine ⟨by decide, by decide, by decide⟩

/-- C8 amended: verification accepts a payload exactly when the file exists,
the file extension is one of `.exe`/`.msi`/`.inf`, and — whenever an
expected size is given that parses to a nonzero byte count — the actual size
is within 10% of it; an absent, unparseable, or zero-byte advisory size is
not checked.  A failed verification leaves `_download_driver` without a
payload path, failing the item. -/
theorem verify_download_amended (file_exists : Bool) (file_size : Nat)
    (file_path : String) (expected_size : Option String) :
    (verify_download file_exists file_size file_path expected_size =
      (file_exists &&
        (match expected_size with
         | none => true
         | some es =>
           match parse_size_string es with
           | some eb => decide (eb = 0 ∨
               10 * ((file_size : Int) - (eb : Int)).natAbs ≤ eb)
           | none => true) &&
        recognizedExt file_path))
    ∧ (∀ download_ok : Bool,
        download_driver download_ok file_exists file_size file_path expected_size =
          (if download_ok &&
              verify_download file_exists file_size file_path expected_size then
            some file_path
          else none)) := by
  refine ⟨?_, ?_⟩
  case refine_2 =>
    intro download_ok
    cases download_ok with
    | false => rfl
    | true =>
      cases hv : verify_download file_exists file_size file_path expected_size <;>
        simp [download_driver, hv]
  cases file_exists with
  | false => rfl
  | true =>
    cases expected_size with
    | none => simp [verify_download]
    | some es =>
      by_cases hes : es = ""
      · subst hes
        simp [verify_download, show parse_size_string "" = none from rfl]
      · cases hp : parse_size_string es with
        | none => simp [verify_download, hes, hp]
        | some eb =>
          by_cases hz : eb = 0
          · subst hz
            simp [verify_download, hes, hp]
          · by_cases hle : 10 * ((file_size : Int) - (eb : Int)).natAbs ≤ eb
            · have hnr : ¬(eb ≠ 0 ∧
                  10 * ((file_size : Int) - (eb : Int)).natAbs > eb) := by
                rintro ⟨-, hgt⟩
                omega
              simp [verify_download, hes, hp, hnr, hle]
            · have hr : eb ≠ 0 ∧
                  10 * ((file_size : Int) - (eb : Int)).natAbs > eb := by
                refine ⟨hz, by omega⟩
              simp [verify_download, hes, hp, hr, hz, hle]

end DriverUpdate
